import Mathlib

/-!
Formal model of `src/MemPoolsAllocator/MemPoolsAlloc.h`: the class
`PoolAlloc::Pool` (a fixed-block arena with an occupancy bitmap, a
first-fit contiguous-run search and a resume hint) and the class
`PoolAlloc::MemPoolList` (an ordered chain of pools).

Modelling conventions:
* `size_t` arithmetic is `Nat` with explicit reduction modulo `2 ^ 64`
  at each operation where the source can wrap (`bytes_ - 1`,
  `--blocks_free_num`, `blocks_free_num + n`, `i + n`,
  `pointer - mem_pointer`, `blocks_free_num * block_size`).
* Pointers are modelled as `Nat` addresses; the null pointer is the
  address `0`; `mem_pointer` is the arena base address.
* `used_blocks` is the list of byte values of the occupancy bitmap,
  exactly as the source lays it out: block `i` lives in byte `i / 8`
  at bit position `8 - 1 - i % 8` counted from the least significant
  bit (most significant bit = lowest block index inside a byte).
  A byte is stored as its unsigned 8-bit pattern (a `Nat` below 256).
* `throw std::bad_alloc` is modelled with `Except`; a C `assert` is
  modelled by a separate decidable predicate stating that the assert
  expression fails (the source is compiled with asserts enabled).
-/

namespace MemPools

/-- Number of values of `size_t`: the source does all size and index
arithmetic in 64-bit unsigned integers. -/
def SIZE : Nat := 2 ^ 64

/-- `PTRDIFF_MAX + 1 = 2 ^ 63`: a single `malloc`-ed object is at most
`PTRDIFF_MAX` bytes (`std::distance` in `Pool::deallocate` computes a
`ptrdiff_t`), so a successfully constructed arena satisfies
`block_size * block_counter < PTRMAX`. -/
def PTRMAX : Nat := 2 ^ 63

/-- `const size_t kByte = 8;` from the source. -/
def kByte : Nat := 8

/-- 64-bit unsigned subtraction `a - b` with two's-complement
wraparound, for operands below `SIZE`. -/
def sub64 (a b : Nat) : Nat := (a + (SIZE - b % SIZE)) % SIZE

/-- `size_t number_of_blocks = 1 + ((bytes_ - 1) / block_size);` from
`Pool::allocate` (and the identical computation in `Pool::deallocate`).
The subtraction `bytes_ - 1` wraps around to `2 ^ 64 - 1` when
`bytes_ = 0`. -/
def numberOfBlocks (bytes bs : Nat) : Nat :=
  (1 + ((bytes + (SIZE - 1)) % SIZE) / bs) % SIZE

/-- The state of one `PoolAlloc::Pool` object.  `mem_pointer` is the
address returned by `malloc` for the arena; `used_blocks` is the byte
contents of the occupancy bitmap. -/
structure Pool where
  block_size : Nat
  block_counter : Nat
  blocks_free_num : Nat
  free_block : Nat
  mem_pointer : Nat
  used_blocks : List Nat
deriving DecidableEq

/-- `used_blocks[k]` (reads outside the allocated bitmap are undefined
behaviour in the source; the model returns the byte 0 there). -/
def getByte (bm : List Nat) (k : Nat) : Nat := bm.getD k 0

/-- `(used_blocks[i / kByte] >> (kByte - 1 - i % kByte)) % 2` as a
`Bool`: the occupancy bit of block `i`.  (For a signed `char` byte the
shift is arithmetic and `%` truncates, but the tested expression is
nonzero exactly when the stored bit is set, which is what the `bool`
conversion in `Pool::get_blocks` observes.) -/
def testBlockBit (bm : List Nat) (i : Nat) : Bool :=
  Nat.testBit (getByte bm (i / kByte)) (kByte - 1 - i % kByte)

/-- `used_blocks[i / kByte] |= (1 << (kByte - 1 - i % kByte))` from
`Pool::use_blocks`, acting on the stored 8-bit pattern. -/
def setBlockBit (bm : List Nat) (i : Nat) : List Nat :=
  bm.set (i / kByte) ((getByte bm (i / kByte)) ||| (2 ^ (kByte - 1 - i % kByte)))

/-- `used_blocks[i / kByte] &= (1 << (kByte - 1 - i % kByte)) ^ 0xFF`
from `Pool::free_blocks`, acting on the stored 8-bit pattern. -/
def clearBlockBit (bm : List Nat) (i : Nat) : List Nat :=
  bm.set (i / kByte) ((getByte bm (i / kByte)) &&& ((2 ^ (kByte - 1 - i % kByte)) ^^^ 255))

/-- The inner `while (right - left + 1 <= n && ok)` loop of
`Pool::get_blocks`, scanning the window of `n` blocks that starts at
`left`: the counter `m` is the number of window positions not yet
examined (the guard `right - left + 1 <= n` holds exactly while
`m > 0`, with `right = left + (n - m)`).  Returns the first position
whose occupancy bit is set (the source then records `i = right` and
clears `ok`), or `none` when the whole window is free. -/
def innerScan (bm : List Nat) : Nat → Nat → Option Nat
  | _, 0 => none
  | right, m + 1 =>
    if testBlockBit bm right then some right else innerScan bm (right + 1) m

/-- The outer `for (size_t i = free_block; i + n <= block_counter; ++i)`
loop of `Pool::get_blocks`.  On a window that hits an occupied block at
position `r` the source sets `i = r` and the `++i` restarts the scan at
`r + 1`.  On a fully free window starting at `i` the source returns
`left = i`, first advancing the hint to `left + n` when `i` still
equals `free_block` (which only happens for the very first window).
`fuel` bounds the number of outer iterations; the start index strictly
increases each iteration and (within the in-bounds executions, the only
ones with defined behaviour in the source) never exceeds
`block_counter`, so `block_counter + 1` iterations always suffice. -/
def getBlocksLoop (bm : List Nat) (bc n fb : Nat) : Nat → Nat → Nat × Nat
  | _, 0 => (bc, fb)
  | i, fuel + 1 =>
    if (i + n) % SIZE ≤ bc then
      match innerScan bm i n with
      | none => (i, if i = fb then i + n else fb)
      | some r => getBlocksLoop bm bc n fb (r + 1) fuel
    else (bc, fb)

/-- `size_t Pool::get_blocks(size_t n)`: returns the found run start
(or the sentinel `block_counter`) together with the pool state, whose
`free_block` hint the search may have advanced. -/
def Pool.get_blocks (p : Pool) (n : Nat) : Nat × Pool :=
  let r := getBlocksLoop p.used_blocks p.block_counter n p.free_block
    p.free_block (p.block_counter + 1)
  (r.1, { p with free_block := r.2 })

/-- The loop body of `void Pool::use_blocks(size_t idx_, size_t n)`:
sets the occupancy bits of blocks `i, i+1, …, i+m-1` and decrements
`blocks_free_num` once per block (a `size_t` decrement, which wraps at
zero). -/
def useBlocksLoop : List Nat → Nat → Nat → Nat → List Nat × Nat
  | bm, cnt, _, 0 => (bm, cnt)
  | bm, cnt, i, m + 1 => useBlocksLoop (setBlockBit bm i) (sub64 cnt 1) (i + 1) m

/-- `void Pool::use_blocks(size_t idx_, size_t n)` (its effect on the
state; the `assert` in its body is modelled by `useBlocksAssertFires`
below). -/
def Pool.use_blocks (p : Pool) (idx n : Nat) : Pool :=
  let r := useBlocksLoop p.used_blocks p.blocks_free_num idx n
  { p with used_blocks := r.1, blocks_free_num := r.2 }

/-- The value of byte pattern `b` read through a (signed) `char`:
values with the top bit set are negative. -/
def charVal (b : Nat) : Int := if b < 128 then (b : Int) else (b : Int) - 256

/-- The expression of `assert((used_blocks[cur_block_idx] >> order) % 2 != 1)`
in `Pool::use_blocks` is false (the assert aborts) exactly when
`(used_blocks[...] >> order) % 2 == 1`.  `used_blocks` is a `char`
array, so the byte is promoted with sign extension, `>>` is an
arithmetic shift (floor division) and `%` truncates toward zero: for a
byte with its top bit set the shifted value is negative and `% 2`
yields `0` or `-1`, never `1`, so the assert cannot fire on such a
byte. -/
def useBlocksAssertFires (bm : List Nat) (i : Nat) : Bool :=
  Int.tmod (Int.fdiv (charVal (getByte bm (i / kByte)))
    (2 ^ (kByte - 1 - i % kByte))) 2 == 1

/-- The clearing loop of `void Pool::free_blocks(size_t idx_, size_t n)`:
clears the occupancy bits of blocks `i, …, i+m-1`.  The body performs
no check whatsoever that a cleared bit was set. -/
def clearLoop : List Nat → Nat → Nat → List Nat
  | bm, _, 0 => bm
  | bm, i, m + 1 => clearLoop (clearBlockBit bm i) (i + 1) m

/-- `void Pool::free_blocks(size_t idx_, size_t n)`: clears the bits,
lowers the hint to `idx_` when `idx_ < free_block`, and adds `n` to
`blocks_free_num` (a `size_t` addition). -/
def Pool.free_blocks (p : Pool) (idx n : Nat) : Pool :=
  { p with
    used_blocks := clearLoop p.used_blocks idx n,
    free_block := if idx < p.free_block then idx else p.free_block,
    blocks_free_num := (p.blocks_free_num + n) % SIZE }

/-- `void* Pool::allocate(size_t bytes_)`: `none` models the `nullptr`
return.  On success the returned address is
`mem_pointer + idx_ * block_size` (for an in-bounds index and an arena
below `PTRMAX` bytes this pointer arithmetic cannot wrap). -/
def Pool.allocate (p : Pool) (bytes : Nat) : Option (Nat × Pool) :=
  let n := numberOfBlocks bytes p.block_size
  let r := p.get_blocks n
  if p.block_counter ≤ r.1 then none
  else some (p.mem_pointer + r.1 * p.block_size, (r.2).use_blocks r.1 n)

/-- The one exception the source can `throw`: `std::bad_alloc`. -/
inductive CppError where
  | badAlloc
deriving DecidableEq

/-- `void Pool::deallocate(void* pointer_, size_t bytes_)`: throws
`std::bad_alloc` on a null pointer, otherwise computes the block index
from the pointer offset (`std::distance` produces a `ptrdiff_t` that is
then stored into a `size_t`, hence the wraparound subtraction) and
calls `free_blocks`. -/
def Pool.deallocate (p : Pool) (ptr bytes : Nat) : Except CppError Pool :=
  if ptr = 0 then Except.error CppError.badAlloc
  else
    let n := numberOfBlocks bytes p.block_size
    let d := sub64 ptr p.mem_pointer
    Except.ok (p.free_blocks (d / p.block_size) n)

/-- `bool Pool::find(void* pointer_) const`: the address-range
ownership test `mem_pointer <= pointer_ && pointer_ < mem_pointer +
block_size * block_counter` (the offset `block_size * block_counter`
is computed in `size_t`). -/
def Pool.find (p : Pool) (ptr : Nat) : Bool :=
  decide (p.mem_pointer ≤ ptr ∧
    ptr < p.mem_pointer + (p.block_size * p.block_counter) % SIZE)

/-- `Pool::Pool(size_t block_size_, size_t block_counter_)`: all blocks
free, hint at 0, bitmap of `1 + ((block_counter_ - 1) / kByte)` bytes,
zero-filled.  `base` is the address `malloc` returned for the arena. -/
def Pool.init (base bs bc : Nat) : Pool :=
  { block_size := bs
    block_counter := bc
    blocks_free_num := bc
    free_block := 0
    mem_pointer := base
    used_blocks := List.replicate (1 + (bc - 1) / kByte) 0 }

/-- `void* MemPoolList::allocate(size_t bytes)`: walk the chain in
order; a pool is probed only when it passes the cheap pre-filter
`blocks_free_num * block_size >= bytes && blocks_free_num` (the product
is a `size_t` multiplication); the first non-null pool result is
returned; if the walk falls off the end the source throws
`std::bad_alloc`.  The chain is modelled as the list of pool states in
link order; the result carries the updated chain. -/
def memListAllocate : List Pool → Nat → Except CppError (Nat × List Pool)
  | [], _ => Except.error CppError.badAlloc
  | p :: rest, bytes =>
    match (if bytes ≤ (p.blocks_free_num * p.block_size) % SIZE ∧
             p.blocks_free_num ≠ 0 then p.allocate bytes else none) with
    | some (ptr, p') => Except.ok (ptr, p' :: rest)
    | none =>
      match memListAllocate rest bytes with
      | Except.ok (ptr, rest') => Except.ok (ptr, p :: rest')
      | Except.error e => Except.error e

/-- `void MemPoolList::deallocate(void* pointer, size_t bytes)`: walk
the chain in order, delegate to the first pool whose `find` claims the
pointer, and silently return when no pool claims it. -/
def memListDeallocate : List Pool → Nat → Nat → Except CppError (List Pool)
  | [], _, _ => Except.ok []
  | p :: rest, ptr, bytes =>
    if p.find ptr then
      match p.deallocate ptr bytes with
      | Except.ok p' => Except.ok (p' :: rest)
      | Except.error e => Except.error e
    else
      match memListDeallocate rest ptr bytes with
      | Except.ok rest' => Except.ok (p :: rest')
      | Except.error e => Except.error e

/-- `blocks s n` is a run of `n` consecutive free blocks inside the
arena: `s + n ≤ block_counter` and every occupancy bit of
`s, …, s + n - 1` is clear. -/
def isFreeRun (bm : List Nat) (bc s n : Nat) : Prop :=
  s + n ≤ bc ∧ ∀ k, k < n → testBlockBit bm (s + k) = false

instance (bm : List Nat) (bc s n : Nat) : Decidable (isFreeRun bm bc s n) := by
  unfold isFreeRun; infer_instance

/-- The number of zero bits among the first `bc` bits of the occupancy
bitmap: the number of free blocks the bitmap actually records. -/
def freeCount (bm : List Nat) (bc : Nat) : Nat :=
  ((Finset.range bc).filter (fun j => testBlockBit bm j = false)).card

/-- The release of a loan under valid use: the byte count maps the
pointer back onto a block range that lies inside the arena and is
currently entirely occupied (as is the case for the blocks of any
previously allocated, still live pointer released with its original
byte count). -/
def ValidRelease (p : Pool) (ptr bytes : Nat) : Prop :=
  let n := numberOfBlocks bytes p.block_size
  let idx := sub64 ptr p.mem_pointer / p.block_size
  idx + n ≤ p.block_counter ∧
    ∀ k, k < n → testBlockBit p.used_blocks (idx + k) = true

instance (p : Pool) (ptr bytes : Nat) : Decidable (ValidRelease p ptr bytes) := by
  unfold ValidRelease; infer_instance

/-- Pool states reachable by valid use of the public interface:
construction from a positive configuration whose arena `malloc`
succeeded (hence is below `PTRDIFF_MAX` bytes), successful allocations
of requests at most the arena size (requests are routed through the
chain, whose pre-filter `blocks_free_num * block_size >= bytes`
guarantees this; a larger direct request drives the source's scan into
out-of-bounds bitmap reads, which is undefined behaviour), and releases
of previously allocated blocks with the original byte count.  A failed
allocation and a sentinel search leave the state unchanged, so they
need no constructor. -/
inductive Reachable : Pool → Prop where
  | init (base bs bc : Nat) (hbs : 0 < bs) (hbc : 0 < bc)
      (hfit : bs * bc < PTRMAX) (hbase : 0 < base)
      (hspace : base + bs * bc < SIZE) : Reachable (Pool.init base bs bc)
  | alloc {p : Pool} (bytes ptr : Nat) {q : Pool} (hp : Reachable p)
      (hbytes : bytes ≤ p.block_size * p.block_counter)
      (h : p.allocate bytes = some (ptr, q)) : Reachable q
  | dealloc {p : Pool} (ptr bytes : Nat) {q : Pool} (hp : Reachable p)
      (hv : ValidRelease p ptr bytes)
      (h : p.deallocate ptr bytes = Except.ok q) : Reachable q

/-- The structural invariant of a pool state. -/
structure Inv (p : Pool) : Prop where
  size_pos : 0 < p.block_size
  count_pos : 0 < p.block_counter
  arena_fits : p.block_size * p.block_counter < PTRMAX
  len_eq : p.used_blocks.length = 1 + (p.block_counter - 1) / kByte
  bytes_lt : ∀ b ∈ p.used_blocks, b < 256
  count_eq : p.blocks_free_num = freeCount p.used_blocks p.block_counter
  hint_le : p.free_block ≤ p.block_counter
  hint_valid : ∀ j, j < p.free_block → testBlockBit p.used_blocks j = true
  mem_pos : 0 < p.mem_pointer
  mem_fits : p.mem_pointer + p.block_size * p.block_counter < SIZE

/-- The spec's block count for a request: `ceil(byte_count / block_size)`. -/
def specCeil (bytes bs : Nat) : Nat := (bytes + bs - 1) / bs

/-! ### Basic arithmetic facts -/

theorem SIZE_eq : SIZE = 18446744073709551616 := rfl

theorem PTRMAX_eq : PTRMAX = 9223372036854775808 := rfl

theorem kByte_eq : kByte = 8 := rfl

theorem sub64_eq_sub {a b : Nat} (hba : b ≤ a) (ha : a < SIZE) :
    sub64 a b = a - b := by
  have hb : b < SIZE := lt_of_le_of_lt hba ha
  unfold sub64
  rw [Nat.mod_eq_of_lt hb, SIZE_eq] at *
  omega

/-- `1 + ((bytes_ - 1) / block_size)` agrees with
`ceil(bytes_ / block_size)` for a genuine request (`1 ≤ bytes_ < 2^64`)
and a positive block size. -/
theorem numberOfBlocks_eq_specCeil {bytes bs : Nat} (h1 : 1 ≤ bytes)
    (h2 : bytes < SIZE) (hbs : 0 < bs) :
    numberOfBlocks bytes bs = specCeil bytes bs := by
  rw [SIZE_eq] at h2
  unfold numberOfBlocks specCeil
  rw [SIZE_eq]
  have e1 : (bytes + (18446744073709551616 - 1)) % 18446744073709551616
      = bytes - 1 := by omega
  rw [e1]
  have hdiv : (bytes - 1) / bs ≤ bytes - 1 := Nat.div_le_self _ _
  have e2lt : 1 + (bytes - 1) / bs < 18446744073709551616 := by omega
  rw [Nat.mod_eq_of_lt e2lt]
  have hqr := Nat.div_add_mod (bytes - 1) bs
  have hr : (bytes - 1) % bs < bs := Nat.mod_lt _ hbs
  have e3 : bytes + bs - 1 = (bytes - 1) % bs + ((bytes - 1) / bs + 1) * bs := by
    have expand : ((bytes - 1) / bs + 1) * bs = bs * ((bytes - 1) / bs) + bs := by
      ring
    omega
  rw [e3, Nat.add_mul_div_right _ _ hbs, Nat.div_eq_of_lt hr]
  omega

/-- A genuine request (`1 ≤ bytes_ < 2^64`) always needs at least one
block. -/
theorem numberOfBlocks_pos {bytes bs : Nat} (h1 : 1 ≤ bytes)
    (h2 : bytes < SIZE) (hbs : 0 < bs) : 1 ≤ numberOfBlocks bytes bs := by
  rw [SIZE_eq] at h2
  unfold numberOfBlocks
  rw [SIZE_eq]
  have hdiv : (bytes - 1) / bs ≤ bytes - 1 := Nat.div_le_self _ _
  have e1 : (bytes + (18446744073709551616 - 1)) % 18446744073709551616
      = bytes - 1 := by omega
  rw [e1]
  have e2lt : 1 + (bytes - 1) / bs < 18446744073709551616 :=
    lt_of_le_of_lt (Nat.add_le_add_left hdiv 1) (by omega)
  rw [Nat.mod_eq_of_lt e2lt]
  exact Nat.le_add_right 1 _

/-- With `block_size ≥ 2`, the wrapped block count of a zero-byte
request exceeds any block count whose arena fits in memory. -/
theorem numberOfBlocks_zero_big {bs bc : Nat} (hbs : 2 ≤ bs)
    (hfit : bs * bc < SIZE) :
    bc < numberOfBlocks 0 bs ∧ numberOfBlocks 0 bs ≤ 2 ^ 63 := by
  rw [SIZE_eq] at hfit
  unfold numberOfBlocks
  rw [SIZE_eq]
  have e1 : (0 + (18446744073709551616 - 1)) % 18446744073709551616
      = 18446744073709551616 - 1 := by omega
  rw [e1]
  have hle : (18446744073709551616 - 1) / bs ≤ (18446744073709551616 - 1) / 2 :=
    Nat.div_le_div_left hbs (by omega)
  have h2 : (18446744073709551616 - 1) / 2 = 2 ^ 63 - 1 := by norm_num
  have hbc : bc ≤ (18446744073709551616 - 1) / bs := by
    refine (Nat.le_div_iff_mul_le (by omega)).mpr ?_
    have hcm : bc * bs = bs * bc := Nat.mul_comm _ _
    omega
  have h63 : (2 : Nat) ^ 63 = 9223372036854775808 := rfl
  rw [h63] at *
  omega

/-! ### Bitmap bytes -/

theorem getByte_set (bm : List Nat) (k v j : Nat) :
    getByte (bm.set k v) j = if k = j ∧ k < bm.length then v else getByte bm j := by
  unfold getByte
  rw [List.getD_eq_getElem?_getD, List.getD_eq_getElem?_getD, List.getElem?_set]
  by_cases h1 : k = j
  · subst h1
    by_cases h2 : k < bm.length
    · simp [h2]
    · rw [List.getElem?_eq_none (Nat.le_of_not_lt h2)]
      simp [h2]
  · simp [h1]

theorem getByte_lt {bm : List Nat} (hb : ∀ b ∈ bm, b < 256) (j : Nat) :
    getByte bm j < 256 := by
  unfold getByte
  rw [List.getD_eq_getElem?_getD]
  rcases h : bm[j]? with _ | b
  · simp
  · exact hb b (List.getElem?_mem h)

theorem getByte_replicate (L j : Nat) : getByte (List.replicate L 0) j = 0 := by
  unfold getByte
  rw [List.getD_eq_getElem?_getD, List.getElem?_replicate]
  split <;> rfl

theorem testBlockBit_replicate (L i : Nat) :
    testBlockBit (List.replicate L 0) i = false := by
  unfold testBlockBit
  rw [getByte_replicate]
  exact Nat.zero_testBit _

/-- The byte index and the bit position inside the byte determine the
block index. -/
theorem bitPos_inj {i j : Nat} (hdiv : i / kByte = j / kByte)
    (hmod : kByte - 1 - i % kByte = kByte - 1 - j % kByte) : i = j := by
  rw [kByte_eq] at hdiv hmod
  omega

/-- Block `i` fits in the bitmap whose byte count the constructor
computed, for `i < block_counter`. -/
theorem byteIndex_lt_len {i bc L : Nat} (hi : i < bc)
    (hL : L = 1 + (bc - 1) / kByte) : i / kByte < L := by
  rw [kByte_eq] at hL
  rw [kByte_eq]
  have h1 : i / 8 ≤ (bc - 1) / 8 := Nat.div_le_div_right (by omega)
  omega

theorem length_setBlockBit (bm : List Nat) (i : Nat) :
    (setBlockBit bm i).length = bm.length := by
  unfold setBlockBit
  exact List.length_set bm _ _

theorem length_clearBlockBit (bm : List Nat) (i : Nat) :
    (clearBlockBit bm i).length = bm.length := by
  unfold clearBlockBit
  exact List.length_set bm _ _

theorem bytes_lt_setBlockBit {bm : List Nat} (hb : ∀ b ∈ bm, b < 256) (i : Nat) :
    ∀ b ∈ setBlockBit bm i, b < 256 := by
  intro b hmem
  rcases List.mem_or_eq_of_mem_set hmem with h | h
  · exact hb b h
  · subst h
    have h1 : getByte bm (i / kByte) < 2 ^ 8 := getByte_lt hb _
    have h2 : (2 : Nat) ^ (kByte - 1 - i % kByte) < 2 ^ 8 := by
      have : kByte - 1 - i % kByte < 8 := by rw [kByte_eq]; omega
      exact Nat.pow_lt_pow_right (by omega) this
    exact Nat.or_lt_two_pow h1 h2

theorem bytes_lt_clearBlockBit {bm : List Nat} (hb : ∀ b ∈ bm, b < 256) (i : Nat) :
    ∀ b ∈ clearBlockBit bm i, b < 256 := by
  intro b hmem
  rcases List.mem_or_eq_of_mem_set hmem with h | h
  · exact hb b h
  · subst h
    have h2 : (2 : Nat) ^ (kByte - 1 - i % kByte) ^^^ 255 < 2 ^ 8 := by
      have ha : (2 : Nat) ^ (kByte - 1 - i % kByte) < 2 ^ 8 := by
        have : kByte - 1 - i % kByte < 8 := by rw [kByte_eq]; omega
        exact Nat.pow_lt_pow_right (by omega) this
      exact Nat.xor_lt_two_pow ha (by norm_num)
    exact Nat.and_lt_two_pow _ h2

/-- Setting the occupancy bit of block `i` sets exactly that bit. -/
theorem testBlockBit_set {bm : List Nat} {i : Nat} (hlen : i / kByte < bm.length)
    (j : Nat) :
    testBlockBit (setBlockBit bm i) j = (testBlockBit bm j || decide (j = i)) := by
  unfold testBlockBit setBlockBit
  rw [getByte_set]
  by_cases hdiv : i / kByte = j / kByte
  · rw [if_pos ⟨hdiv, hlen⟩, Nat.testBit_or, Nat.testBit_two_pow, hdiv]
    by_cases heq : j = i
    · subst heq
      simp
    · have hne : ¬(kByte - 1 - i % kByte = kByte - 1 - j % kByte) := by
        intro hmod
        exact heq (bitPos_inj hdiv hmod).symm
      simp [hne, heq]
  · rw [if_neg (by exact fun hc => hdiv hc.1)]
    have hne : ¬(j = i) := by
      intro h
      exact hdiv (by rw [h])
    simp [hne]

/-- Clearing the occupancy bit of block `i` clears exactly that bit. -/
theorem testBlockBit_clear {bm : List Nat} {i : Nat} (hlen : i / kByte < bm.length)
    (j : Nat) :
    testBlockBit (clearBlockBit bm i) j = (testBlockBit bm j && !decide (j = i)) := by
  unfold testBlockBit clearBlockBit
  rw [getByte_set]
  by_cases hdiv : i / kByte = j / kByte
  · rw [if_pos ⟨hdiv, hlen⟩, Nat.testBit_and, Nat.testBit_xor, Nat.testBit_two_pow,
      hdiv]
    have h255 : (255 : Nat) = 2 ^ 8 - 1 := rfl
    rw [h255, Nat.testBit_two_pow_sub_one]
    have hlt : kByte - 1 - j % kByte < 8 := by rw [kByte_eq]; omega
    by_cases heq : j = i
    · subst heq
      simp [hlt]
    · have hne : ¬(kByte - 1 - i % kByte = kByte - 1 - j % kByte) := by
        intro hmod
        exact heq (bitPos_inj hdiv hmod).symm
      simp [hne, hlt, heq]
  · rw [if_neg (by exact fun hc => hdiv hc.1)]
    have hne : ¬(j = i) := by
      intro h
      exact hdiv (by rw [h])
    simp [hne]

/-! ### Free-bit counting -/

theorem freeCount_le (bm : List Nat) (bc : Nat) : freeCount bm bc ≤ bc := by
  unfold freeCount
  exact le_trans (Finset.card_filter_le _ _) (by simp)

theorem freeCount_congr {bm bm' : List Nat} {bc : Nat}
    (h : ∀ j, j < bc → testBlockBit bm' j = testBlockBit bm j) :
    freeCount bm' bc = freeCount bm bc := by
  unfold freeCount
  congr 1
  apply Finset.filter_congr
  intro j hj
  rw [Finset.mem_range] at hj
  rw [h j hj]

/-- Marking a free in-bounds range of `n` blocks removes exactly `n`
elements from the free set. -/
theorem freeCount_mark {bm bm' : List Nat} {bc idx n : Nat}
    (hpt : ∀ j, testBlockBit bm' j
      = (testBlockBit bm j || decide (idx ≤ j ∧ j < idx + n)))
    (hrange : idx + n ≤ bc)
    (hfree : ∀ k, k < n → testBlockBit bm (idx + k) = false) :
    n ≤ freeCount bm bc ∧ freeCount bm' bc = freeCount bm bc - n := by
  have hsub : Finset.Ico idx (idx + n)
      ⊆ (Finset.range bc).filter (fun j => testBlockBit bm j = false) := by
    intro j hj
    rw [Finset.mem_Ico] at hj
    rw [Finset.mem_filter, Finset.mem_range]
    refine ⟨lt_of_lt_of_le hj.2 hrange, ?_⟩
    have := hfree (j - idx) (by omega)
    rwa [show idx + (j - idx) = j by omega] at this
  constructor
  · have := Finset.card_le_card hsub
    rwa [Nat.card_Ico, Nat.add_sub_cancel_left] at this
  · unfold freeCount
    have heq : (Finset.range bc).filter (fun j => testBlockBit bm' j = false)
        = ((Finset.range bc).filter (fun j => testBlockBit bm j = false))
          \ Finset.Ico idx (idx + n) := by
      ext j
      simp only [Finset.mem_filter, Finset.mem_range, Finset.mem_sdiff,
        Finset.mem_Ico, hpt, Bool.or_eq_false_iff, decide_eq_false_iff_not]
      exact and_assoc.symm
    rw [heq, Finset.card_sdiff hsub, Nat.card_Ico, Nat.add_sub_cancel_left]

/-- Clearing an occupied in-bounds range of `n` blocks adds exactly `n`
elements to the free set. -/
theorem freeCount_clear {bm bm' : List Nat} {bc idx n : Nat}
    (hpt : ∀ j, testBlockBit bm' j
      = (testBlockBit bm j && !decide (idx ≤ j ∧ j < idx + n)))
    (hrange : idx + n ≤ bc)
    (hset : ∀ k, k < n → testBlockBit bm (idx + k) = true) :
    freeCount bm' bc = freeCount bm bc + n := by
  unfold freeCount
  have heq : (Finset.range bc).filter (fun j => testBlockBit bm' j = false)
      = ((Finset.range bc).filter (fun j => testBlockBit bm j = false))
        ∪ Finset.Ico idx (idx + n) := by
    ext j
    simp only [Finset.mem_filter, Finset.mem_range, Finset.mem_union,
      Finset.mem_Ico, hpt, Bool.and_eq_false_iff, Bool.not_eq_false,
      decide_eq_true_eq]
    constructor
    · rintro ⟨h1, h2 | h2⟩
      · exact Or.inl ⟨h1, h2⟩
      · exact Or.inr (by simpa using h2)
    · rintro (⟨h1, h2⟩ | h2)
      · exact ⟨h1, Or.inl h2⟩
      · exact ⟨lt_of_lt_of_le h2.2 hrange, Or.inr (by simpa using h2)⟩
  have hdisj : Disjoint
      ((Finset.range bc).filter (fun j => testBlockBit bm j = false))
      (Finset.Ico idx (idx + n)) := by
    rw [Finset.disjoint_left]
    intro j hj hj2
    rw [Finset.mem_filter] at hj
    rw [Finset.mem_Ico] at hj2
    have := hset (j - idx) (by omega)
    rw [show idx + (j - idx) = j by omega] at this
    rw [hj.2] at this
    exact Bool.false_ne_true this
  rw [heq, Finset.card_union_of_disjoint hdisj, Nat.card_Ico,
    Nat.add_sub_cancel_left]

/-! ### The marking and clearing loops -/

theorem useBlocksLoop_length (bm : List Nat) (cnt idx n : Nat) :
    (useBlocksLoop bm cnt idx n).1.length = bm.length := by
  induction n generalizing bm cnt idx with
  | zero => rfl
  | succ n ih =>
    show (useBlocksLoop (setBlockBit bm idx) (sub64 cnt 1) (idx + 1) n).1.length = _
    rw [ih, length_setBlockBit]

theorem useBlocksLoop_bytes_lt {bm : List Nat} (hb : ∀ b ∈ bm, b < 256)
    (cnt idx n : Nat) : ∀ b ∈ (useBlocksLoop bm cnt idx n).1, b < 256 := by
  induction n generalizing bm cnt idx with
  | zero => exact hb
  | succ n ih => exact ih (bytes_lt_setBlockBit hb idx) _ _

theorem useBlocksLoop_testBit {bm : List Nat} {idx n : Nat} (cnt : Nat)
    (hin : ∀ k, k < n → (idx + k) / kByte < bm.length) :
    ∀ j, testBlockBit (useBlocksLoop bm cnt idx n).1 j
      = (testBlockBit bm j || decide (idx ≤ j ∧ j < idx + n)) := by
  induction n generalizing bm cnt idx with
  | zero =>
    intro j
    have : ¬(idx ≤ j ∧ j < idx + 0) := by omega
    simp [useBlocksLoop, this]
  | succ n ih =>
    intro j
    have h0 : idx / kByte < bm.length := by
      have := hin 0 (Nat.succ_pos n)
      simpa using this
    have hin' : ∀ k, k < n → (idx + 1 + k) / kByte < (setBlockBit bm idx).length := by
      intro k hk
      rw [length_setBlockBit]
      have := hin (k + 1) (by omega)
      rwa [show idx + (k + 1) = idx + 1 + k by omega] at this
    show testBlockBit (useBlocksLoop (setBlockBit bm idx) (sub64 cnt 1) (idx + 1) n).1 j = _
    rw [ih (sub64 cnt 1) hin' j, testBlockBit_set h0 j]
    rw [Bool.or_assoc]
    congr 1
    rw [← Bool.decide_or, decide_eq_decide]
    omega

theorem useBlocksLoop_cnt {cnt n : Nat} (bm : List Nat) (idx : Nat)
    (hn : n ≤ cnt) (hlt : cnt < SIZE) :
    (useBlocksLoop bm cnt idx n).2 = cnt - n := by
  induction n generalizing bm cnt idx with
  | zero => rfl
  | succ n ih =>
    show (useBlocksLoop (setBlockBit bm idx) (sub64 cnt 1) (idx + 1) n).2 = _
    rw [sub64_eq_sub (by omega) hlt, ih _ _ (by omega) (by omega)]
    omega

theorem clearLoop_length (bm : List Nat) (idx n : Nat) :
    (clearLoop bm idx n).length = bm.length := by
  induction n generalizing bm idx with
  | zero => rfl
  | succ n ih =>
    show (clearLoop (clearBlockBit bm idx) (idx + 1) n).length = _
    rw [ih, length_clearBlockBit]

theorem clearLoop_bytes_lt {bm : List Nat} (hb : ∀ b ∈ bm, b < 256)
    (idx n : Nat) : ∀ b ∈ clearLoop bm idx n, b < 256 := by
  induction n generalizing bm idx with
  | zero => exact hb
  | succ n ih => exact ih (bytes_lt_clearBlockBit hb idx) _

theorem clearLoop_testBit {bm : List Nat} {idx n : Nat}
    (hin : ∀ k, k < n → (idx + k) / kByte < bm.length) :
    ∀ j, testBlockBit (clearLoop bm idx n) j
      = (testBlockBit bm j && !decide (idx ≤ j ∧ j < idx + n)) := by
  induction n generalizing bm idx with
  | zero =>
    intro j
    have hno : ¬(idx ≤ j ∧ j < idx + 0) := by omega
    simp only [clearLoop, hno, decide_False, Bool.not_false, Bool.and_true]
  | succ n ih =>
    intro j
    have h0 : idx / kByte < bm.length := by
      have := hin 0 (Nat.succ_pos n)
      simpa using this
    have hin' : ∀ k, k < n → (idx + 1 + k) / kByte < (clearBlockBit bm idx).length := by
      intro k hk
      rw [length_clearBlockBit]
      have := hin (k + 1) (by omega)
      rwa [show idx + (k + 1) = idx + 1 + k by omega] at this
    show testBlockBit (clearLoop (clearBlockBit bm idx) (idx + 1) n) j = _
    rw [ih hin' j, testBlockBit_clear h0 j]
    rw [Bool.and_assoc]
    congr 1
    rw [← Bool.not_or]
    congr 1
    rw [← Bool.decide_or, decide_eq_decide]
    omega

/-! ### The window scan -/

theorem innerScan_none_iff (bm : List Nat) (right n : Nat) :
    innerScan bm right n = none
      ↔ ∀ k, k < n → testBlockBit bm (right + k) = false := by
  induction n generalizing right with
  | zero => simp [innerScan]
  | succ n ih =>
    by_cases h : testBlockBit bm right
    · simp only [innerScan, h, if_true]
      constructor
      · intro hc
        exact absurd hc (by simp)
      · intro hall
        have h0 := hall 0 (Nat.succ_pos n)
        rw [Nat.add_zero, h] at h0
        cases h0
    · have hf : testBlockBit bm right = false := by simpa using h
      simp only [innerScan, hf]
      rw [if_neg (by simp : ¬(false = true))]
      rw [ih]
      constructor
      · intro hall k hk
        cases k with
        | zero =>
          simpa using h
        | succ k =>
          have := hall k (by omega)
          rwa [show right + 1 + k = right + (k + 1) by omega] at this
      · intro hall k hk
        have := hall (k + 1) (by omega)
        rwa [show right + (k + 1) = right + 1 + k by omega] at this

theorem innerScan_some {bm : List Nat} {right n r : Nat}
    (h : innerScan bm right n = some r) :
    right ≤ r ∧ r < right + n ∧ testBlockBit bm r = true
      ∧ ∀ j, right ≤ j → j < r → testBlockBit bm j = false := by
  induction n generalizing right with
  | zero => exact absurd h (by simp [innerScan])
  | succ n ih =>
    simp only [innerScan] at h
    by_cases hb : testBlockBit bm right
    · rw [if_pos hb] at h
      injection h with h
      subst h
      exact ⟨le_refl _, by omega, hb,
        fun j hj1 hj2 => absurd (lt_of_le_of_lt hj1 hj2) (lt_irrefl _)⟩
    · rw [if_neg hb] at h
      obtain ⟨h1, h2, h3, h4⟩ := ih h
      have hf : testBlockBit bm right = false := by simpa using hb
      refine ⟨by omega, by omega, h3, ?_⟩
      intro j hj1 hj2
      rcases Nat.eq_or_lt_of_le hj1 with he | hl
      · rwa [he] at hf
      · exact h4 j (by omega) hj2

/-! ### The outer search loop -/

theorem getBlocksLoop_guard_fail {bm : List Nat} {bc n fb i : Nat} (fuel : Nat)
    (h : ¬ (i + n) % SIZE ≤ bc) :
    getBlocksLoop bm bc n fb i (fuel + 1) = (bc, fb) := by
  simp only [getBlocksLoop]
  rw [if_neg h]

/-- The outer loop of `get_blocks`, in the wrap-free regime
(`bc + n < 2^64`): with enough fuel and a prefix known to contain no
free run, it either returns the sentinel `block_counter` (leaving the
hint alone) because no free run of length `n` exists at all, or returns
the lowest start of a free run of length `n`, advancing the hint past
the run exactly when the run starts at the hint. -/
theorem getBlocksLoop_spec {bm : List Nat} {bc n fb : Nat} (hn : 1 ≤ n)
    (hbcn : bc + n < SIZE) :
    ∀ fuel i, i ≤ bc → bc < i + fuel →
      (∀ s, s < i → ¬ isFreeRun bm bc s n) →
      ((getBlocksLoop bm bc n fb i fuel).1 = bc
          ∧ (getBlocksLoop bm bc n fb i fuel).2 = fb
          ∧ ∀ s, ¬ isFreeRun bm bc s n)
        ∨ ((getBlocksLoop bm bc n fb i fuel).1 + n ≤ bc
          ∧ isFreeRun bm bc (getBlocksLoop bm bc n fb i fuel).1 n
          ∧ (∀ s, s < (getBlocksLoop bm bc n fb i fuel).1
              → ¬ isFreeRun bm bc s n)
          ∧ (getBlocksLoop bm bc n fb i fuel).2
            = (if (getBlocksLoop bm bc n fb i fuel).1 = fb
               then (getBlocksLoop bm bc n fb i fuel).1 + n else fb)
          ∧ i ≤ (getBlocksLoop bm bc n fb i fuel).1) := by
  intro fuel
  induction fuel with
  | zero =>
    intro i hi hfuel hpre
    omega
  | succ fuel ih =>
    intro i hi hfuel hpre
    have hnow : (i + n) % SIZE = i + n := Nat.mod_eq_of_lt (by omega)
    by_cases hguard : (i + n) % SIZE ≤ bc
    · rcases hscan : innerScan bm i n with _ | r
      · have hrun : isFreeRun bm bc i n :=
          ⟨by rw [hnow] at hguard; exact hguard, (innerScan_none_iff bm i n).mp hscan⟩
        have hred : getBlocksLoop bm bc n fb i (fuel + 1)
            = (i, if i = fb then i + n else fb) := by
          simp only [getBlocksLoop, hscan]
          rw [if_pos hguard]
        rw [hred]
        refine Or.inr ⟨by rw [hnow] at hguard; exact hguard, hrun, hpre, rfl, le_refl _⟩
      · obtain ⟨hr1, hr2, hr3, hr4⟩ := innerScan_some hscan
        have hred : getBlocksLoop bm bc n fb i (fuel + 1)
            = getBlocksLoop bm bc n fb (r + 1) fuel := by
          simp only [getBlocksLoop, hscan]
          rw [if_pos hguard]
        rw [hnow] at hguard
        have hpre' : ∀ s, s < r + 1 → ¬ isFreeRun bm bc s n := by
          intro s hs hrun
          by_cases hsi : s < i
          · exact hpre s hsi hrun
          · push_neg at hsi
            have := hrun.2 (r - s) (by omega)
            rw [show s + (r - s) = r by omega] at this
            rw [hr3] at this
            cases this
        have hrec := ih (r + 1) (by omega) (by omega) hpre'
        rw [hred]
        rcases hrec with hL | hR
        · exact Or.inl hL
        · exact Or.inr ⟨hR.1, hR.2.1, hR.2.2.1, hR.2.2.2.1, by omega⟩
    · rw [getBlocksLoop_guard_fail fuel hguard]
      rw [hnow] at hguard
      refine Or.inl ⟨rfl, rfl, ?_⟩
      intro s hrun
      by_cases hsi : s < i
      · exact hpre s hsi hrun
      · push_neg at hsi
        have := hrun.1
        omega

/-- On a bitmap whose first `bc` bits are all set the outer loop never
produces an in-range index. -/
theorem getBlocksLoop_full {bm : List Nat} {bc n fb : Nat} (hn : 1 ≤ n)
    (hfull : ∀ j, j < bc → testBlockBit bm j = true) :
    ∀ fuel i, bc ≤ (getBlocksLoop bm bc n fb i fuel).1 := by
  intro fuel
  induction fuel with
  | zero => intro i; exact le_refl bc
  | succ fuel ih =>
    intro i
    by_cases hguard : (i + n) % SIZE ≤ bc
    · rcases hscan : innerScan bm i n with _ | r
      · have hfree := (innerScan_none_iff bm i n).mp hscan 0 hn
        rw [Nat.add_zero] at hfree
        have hge : ¬ i < bc := by
          intro hc
          rw [hfull i hc] at hfree
          cases hfree
        have hred : getBlocksLoop bm bc n fb i (fuel + 1)
            = (i, if i = fb then i + n else fb) := by
          simp only [getBlocksLoop, hscan]
          rw [if_pos hguard]
        rw [hred]
        exact Nat.le_of_not_lt hge
      · have hred : getBlocksLoop bm bc n fb i (fuel + 1)
            = getBlocksLoop bm bc n fb (r + 1) fuel := by
          simp only [getBlocksLoop, hscan]
          rw [if_pos hguard]
        rw [hred]
        exact ih (r + 1)
    · rw [getBlocksLoop_guard_fail fuel hguard]

/-! ### Pool-level facts -/

theorem Inv.bc_lt {p : Pool} (h : Inv p) : p.block_counter < PTRMAX := by
  have h1 : p.block_counter ≤ p.block_size * p.block_counter :=
    Nat.le_mul_of_pos_left _ h.size_pos
  exact lt_of_le_of_lt h1 h.arena_fits

theorem Inv.cnt_le {p : Pool} (h : Inv p) : p.blocks_free_num ≤ p.block_counter := by
  rw [h.count_eq]
  exact freeCount_le _ _

/-- The wrap-free form of the block count of a genuine request. -/
theorem numberOfBlocks_pos_eq {bytes bs : Nat} (h1 : 1 ≤ bytes)
    (h2 : bytes < SIZE) : numberOfBlocks bytes bs = 1 + (bytes - 1) / bs := by
  rw [SIZE_eq] at h2
  unfold numberOfBlocks
  rw [SIZE_eq]
  have e1 : (bytes + (18446744073709551616 - 1)) % 18446744073709551616
      = bytes - 1 := by omega
  rw [e1]
  have hdiv : (bytes - 1) / bs ≤ bytes - 1 := Nat.div_le_self _ _
  exact Nat.mod_eq_of_lt (lt_of_le_of_lt (Nat.add_le_add_left hdiv 1) (by omega))

/-- A request that passes the chain pre-filter (`bytes ≤ blocks_free *
block_size ≤ block_size * block_counter`) needs at most `block_counter`
blocks. -/
theorem numberOfBlocks_le_bc {bytes bs bc : Nat} (h1 : 1 ≤ bytes) (hbs : 0 < bs)
    (hfit : bs * bc < SIZE) (hbytes : bytes ≤ bs * bc) :
    numberOfBlocks bytes bs ≤ bc := by
  rw [numberOfBlocks_pos_eq h1 (lt_of_le_of_lt hbytes hfit)]
  have hbc : 0 < bc := by
    rcases Nat.eq_zero_or_pos bc with h | h
    · subst h
      simp at hbytes
      omega
    · exact h
  have hq : (bytes - 1) / bs < bc := by
    rw [Nat.div_lt_iff_lt_mul hbs]
    have : bs * bc = bc * bs := Nat.mul_comm _ _
    omega
  omega

/-- `get_blocks` with a zero block count succeeds immediately at the
hint, leaving the state unchanged. -/
theorem get_blocks_zero {p : Pool} (hle : p.free_block ≤ p.block_counter)
    (hbc : p.block_counter < SIZE) :
    p.get_blocks 0 = (p.free_block, p) := by
  unfold Pool.get_blocks
  have h1 : p.free_block % SIZE = p.free_block := Nat.mod_eq_of_lt (by omega)
  simp only [getBlocksLoop, Nat.add_zero, h1, innerScan, if_pos hle, if_pos rfl]
  rfl

/-- The first-fit search specification for `get_blocks` under the
structural invariant, for a feasible block count (`1 ≤ n ≤
block_counter`): the result is either the sentinel with an unchanged
state and no free run anywhere, or the lowest-indexed free run of `n`
blocks, with the hint advanced past the run exactly when the run
starts at the hint. -/
theorem get_blocks_spec {p : Pool} (hInv : Inv p) {n : Nat} (hn : 1 ≤ n)
    (hnbc : n ≤ p.block_counter) :
    ((p.get_blocks n).1 = p.block_counter ∧ (p.get_blocks n).2 = p
        ∧ ∀ s, ¬ isFreeRun p.used_blocks p.block_counter s n)
      ∨ ((p.get_blocks n).1 + n ≤ p.block_counter
        ∧ isFreeRun p.used_blocks p.block_counter ((p.get_blocks n).1) n
        ∧ (∀ s, s < (p.get_blocks n).1
            → ¬ isFreeRun p.used_blocks p.block_counter s n)
        ∧ (p.get_blocks n).2 = { p with free_block :=
            if (p.get_blocks n).1 = p.free_block then (p.get_blocks n).1 + n
            else p.free_block }
        ∧ p.free_block ≤ (p.get_blocks n).1) := by
  have hbcn : p.block_counter + n < SIZE := by
    have h1 := hInv.bc_lt
    rw [PTRMAX_eq] at h1
    rw [SIZE_eq]
    omega
  have hpre : ∀ s, s < p.free_block
      → ¬ isFreeRun p.used_blocks p.block_counter s n := by
    intro s hs hrun
    have hbit := hInv.hint_valid s hs
    have hfree := hrun.2 0 hn
    rw [Nat.add_zero, hbit] at hfree
    cases hfree
  have hmain := @getBlocksLoop_spec p.used_blocks p.block_counter n p.free_block
    hn hbcn (p.block_counter + 1) p.free_block hInv.hint_le (by omega) hpre
  simp only [Pool.get_blocks]
  rcases hmain with ⟨h1, h2, h3⟩ | ⟨h1, h2, h3, h4, h5⟩
  · refine Or.inl ⟨h1, ?_, h3⟩
    rw [h2]
  · exact Or.inr ⟨h1, h2, h3, by rw [h4], h5⟩

/-- With `block_size ≥ 2` a zero-byte request always fails: the
wrapped block count exceeds `block_counter`, so the very first loop
guard `i + n <= block_counter` is false. -/
theorem allocate_zero_bs2 {p : Pool} (hbs : 2 ≤ p.block_size)
    (hfit : p.block_size * p.block_counter < SIZE)
    (hle : p.free_block ≤ p.block_counter) : p.allocate 0 = none := by
  obtain ⟨hgt, hle63⟩ := numberOfBlocks_zero_big hbs hfit
  have hguard : ¬ (p.free_block + numberOfBlocks 0 p.block_size) % SIZE
      ≤ p.block_counter := by
    have hlt : p.free_block + numberOfBlocks 0 p.block_size < SIZE := by
      rw [SIZE_eq]
      have h63 : (2 : Nat) ^ 63 = 9223372036854775808 := rfl
      rw [h63] at hle63
      omega
    rw [Nat.mod_eq_of_lt hlt]
    omega
  simp only [Pool.allocate, Pool.get_blocks,
    getBlocksLoop_guard_fail p.block_counter hguard]
  rw [if_pos (le_refl _)]

/-- What a successful `Pool::allocate` means, for any request within
the arena size: the returned pointer addresses a free in-bounds run of
the computed block count, starting at or after the hint — and, for a
genuine (nonzero) request, at the lowest-indexed free run of that
length — and the new state is exactly the old one with the run marked,
the count decreased and the hint conditionally advanced. -/
theorem allocate_some_core {p : Pool} (hInv : Inv p) {bytes ptr : Nat} {q : Pool}
    (hbytes : bytes ≤ p.block_size * p.block_counter)
    (h : p.allocate bytes = some (ptr, q)) :
    ∃ idx,
      idx < p.block_counter
      ∧ idx + numberOfBlocks bytes p.block_size ≤ p.block_counter
      ∧ isFreeRun p.used_blocks p.block_counter idx
          (numberOfBlocks bytes p.block_size)
      ∧ p.free_block ≤ idx
      ∧ (1 ≤ bytes → ∀ s, s < idx
          → ¬ isFreeRun p.used_blocks p.block_counter s
              (numberOfBlocks bytes p.block_size))
      ∧ ptr = p.mem_pointer + idx * p.block_size
      ∧ q = Pool.use_blocks { p with free_block :=
          if idx = p.free_block then idx + numberOfBlocks bytes p.block_size
          else p.free_block } idx (numberOfBlocks bytes p.block_size) := by
  have hPS : PTRMAX < SIZE := by rw [PTRMAX_eq, SIZE_eq]; omega
  rcases Nat.eq_zero_or_pos bytes with hb0 | hb1
  · subst hb0
    rcases Nat.lt_or_ge p.block_size 2 with hbs1 | hbs2
    · have hbs1' : p.block_size = 1 := by
        have := hInv.size_pos
        omega
      have hn0 : numberOfBlocks 0 p.block_size = 0 := by
        rw [hbs1']
        rfl
      have hgz := get_blocks_zero hInv.hint_le (lt_trans hInv.bc_lt hPS)
      simp only [Pool.allocate, hn0, hgz] at h
      by_cases hfb : p.block_counter ≤ p.free_block
      · rw [if_pos hfb] at h
        cases h
      · rw [if_neg hfb] at h
        rw [Option.some_inj, Prod.mk.injEq] at h
        obtain ⟨hp, hq⟩ := h
        push_neg at hfb
        have hself : ({ p with free_block :=
            if p.free_block = p.free_block
            then p.free_block + numberOfBlocks 0 p.block_size
            else p.free_block } : Pool) = p := by
          rw [hn0]
          simp
        refine ⟨p.free_block, hfb, by rw [hn0]; omega, ?_, le_refl _,
          by omega, hp.symm, ?_⟩
        · exact ⟨by rw [hn0]; omega, fun k hk => absurd hk (by rw [hn0] at hk ⊢; omega)⟩
        · rw [← hq, hself, hn0]
    · have hnone := allocate_zero_bs2 hbs2 (lt_trans hInv.arena_fits hPS)
        hInv.hint_le
      rw [hnone] at h
      cases h
  · have hfitS : p.block_size * p.block_counter < SIZE :=
      lt_trans hInv.arena_fits hPS
    have hblt : bytes < SIZE := lt_of_le_of_lt hbytes hfitS
    have hn1 : 1 ≤ numberOfBlocks bytes p.block_size :=
      numberOfBlocks_pos hb1 hblt hInv.size_pos
    have hnbc : numberOfBlocks bytes p.block_size ≤ p.block_counter :=
      numberOfBlocks_le_bc hb1 hInv.size_pos hfitS hbytes
    rcases get_blocks_spec hInv hn1 hnbc with ⟨h1, h2, h3⟩ | ⟨h1, h2, h3, h4, h5⟩
    · simp only [Pool.allocate] at h
      rw [if_pos (le_of_eq h1.symm)] at h
      cases h
    · simp only [Pool.allocate] at h
      have hlt : (p.get_blocks (numberOfBlocks bytes p.block_size)).1
          < p.block_counter := by omega
      rw [if_neg (Nat.not_le_of_lt hlt)] at h
      rw [Option.some_inj, Prod.mk.injEq] at h
      obtain ⟨hp, hq⟩ := h
      exact ⟨(p.get_blocks (numberOfBlocks bytes p.block_size)).1, hlt, h1, h2,
        h5, fun _ => h3, hp.symm, by rw [← hq, h4]⟩

theorem get_blocks_fst (p : Pool) (n : Nat) :
    (p.get_blocks n).1 = (getBlocksLoop p.used_blocks p.block_counter n
      p.free_block p.free_block (p.block_counter + 1)).1 := rfl

/-- `Pool::allocate` translates a sentinel search result to the null
pointer. -/
theorem allocate_eq_none {p : Pool} {bytes : Nat}
    (h : p.block_counter ≤ (p.get_blocks (numberOfBlocks bytes p.block_size)).1) :
    p.allocate bytes = none := by
  simp only [Pool.allocate]
  rw [if_pos h]

/-- On a fully occupied pool any genuine request fails: the sentinel is
returned and translated to the null pointer. -/
theorem allocate_of_full {p : Pool} (hInv : Inv p) {bytes : Nat} (h1 : 1 ≤ bytes)
    (h2 : bytes < SIZE)
    (hfull : ∀ j, j < p.block_counter → testBlockBit p.used_blocks j = true) :
    p.allocate bytes = none := by
  have hn : 1 ≤ numberOfBlocks bytes p.block_size :=
    numberOfBlocks_pos h1 h2 hInv.size_pos
  have hge := @getBlocksLoop_full p.used_blocks p.block_counter
    (numberOfBlocks bytes p.block_size) p.free_block hn hfull
    (p.block_counter + 1) p.free_block
  refine allocate_eq_none ?_
  rw [get_blocks_fst]
  exact hge

/-- Under the invariant a zero free count means every block is
occupied. -/
theorem full_of_count_zero {p : Pool} (hInv : Inv p) (h : p.blocks_free_num = 0) :
    ∀ j, j < p.block_counter → testBlockBit p.used_blocks j = true := by
  intro j hj
  by_contra hc
  have hf : testBlockBit p.used_blocks j = false := by simpa using hc
  have hmem : j ∈ (Finset.range p.block_counter).filter
      (fun i => testBlockBit p.used_blocks i = false) := by
    rw [Finset.mem_filter, Finset.mem_range]
    exact ⟨hj, hf⟩
  have hpos := Finset.card_pos.mpr ⟨j, hmem⟩
  have hcnt := hInv.count_eq
  rw [h] at hcnt
  unfold freeCount at hcnt
  omega

/-- `Pool::deallocate` on a non-null pointer always reaches
`free_blocks` with the offset-derived block index. -/
theorem deallocate_eq {p : Pool} {ptr bytes : Nat} (hptr : ptr ≠ 0) :
    p.deallocate ptr bytes = Except.ok (p.free_blocks
      (sub64 ptr p.mem_pointer / p.block_size)
      (numberOfBlocks bytes p.block_size)) := by
  unfold Pool.deallocate
  rw [if_neg hptr]

/-! ### Invariant preservation -/

theorem use_blocks_testBit {p : Pool} (hInv : Inv p) {idx n : Nat}
    (hrange : idx + n ≤ p.block_counter) (f : Nat) :
    ∀ j, testBlockBit (Pool.use_blocks { p with free_block := f } idx n).used_blocks j
      = (testBlockBit p.used_blocks j || decide (idx ≤ j ∧ j < idx + n)) := by
  have hin : ∀ k, k < n → (idx + k) / kByte < p.used_blocks.length := by
    intro k hk
    exact byteIndex_lt_len (by omega) hInv.len_eq
  exact useBlocksLoop_testBit p.blocks_free_num hin

theorem free_blocks_testBit {p : Pool} (hInv : Inv p) {idx n : Nat}
    (hrange : idx + n ≤ p.block_counter) :
    ∀ j, testBlockBit (p.free_blocks idx n).used_blocks j
      = (testBlockBit p.used_blocks j && !decide (idx ≤ j ∧ j < idx + n)) := by
  have hin : ∀ k, k < n → (idx + k) / kByte < p.used_blocks.length := by
    intro k hk
    exact byteIndex_lt_len (by omega) hInv.len_eq
  exact clearLoop_testBit hin

/-- Marking a free in-bounds run (the `use_blocks` call of a successful
allocation) preserves the invariant, provided the new hint `f` is
either unchanged or the end of a run that started at the old hint; the
free counter drops by exactly the run length. -/
theorem Inv_mark {p : Pool} (hInv : Inv p) {idx n f : Nat}
    (hrange : idx + n ≤ p.block_counter)
    (hfree : ∀ k, k < n → testBlockBit p.used_blocks (idx + k) = false)
    (hf_le : f ≤ p.block_counter)
    (hf_valid : f = p.free_block ∨ (f = idx + n ∧ idx = p.free_block)) :
    Inv (Pool.use_blocks { p with free_block := f } idx n)
      ∧ (Pool.use_blocks { p with free_block := f } idx n).blocks_free_num
        = p.blocks_free_num - n
      ∧ n ≤ p.blocks_free_num := by
  have hpt := use_blocks_testBit hInv hrange f
  have hmark := freeCount_mark hpt hrange hfree
  have hnle : n ≤ p.blocks_free_num := by
    rw [hInv.count_eq]
    exact hmark.1
  have hcntlt : p.blocks_free_num < SIZE := by
    have h1 := hInv.cnt_le
    have h2 := hInv.bc_lt
    rw [PTRMAX_eq] at h2
    rw [SIZE_eq]
    omega
  have hcnt : (Pool.use_blocks { p with free_block := f } idx n).blocks_free_num
      = p.blocks_free_num - n :=
    useBlocksLoop_cnt p.used_blocks idx hnle hcntlt
  refine ⟨⟨hInv.size_pos, hInv.count_pos, hInv.arena_fits, ?_, ?_, ?_, hf_le, ?_,
    hInv.mem_pos, hInv.mem_fits⟩, hcnt, hnle⟩
  · exact (useBlocksLoop_length p.used_blocks p.blocks_free_num idx n).trans
      hInv.len_eq
  · show ∀ b ∈ (useBlocksLoop p.used_blocks p.blocks_free_num idx n).1, b < 256
    exact useBlocksLoop_bytes_lt hInv.bytes_lt p.blocks_free_num idx n
  · show (Pool.use_blocks { p with free_block := f } idx n).blocks_free_num
      = freeCount (Pool.use_blocks { p with free_block := f } idx n).used_blocks
        p.block_counter
    rw [hcnt, hmark.2, hInv.count_eq]
  · intro j hj
    have hj' : j < f := hj
    rw [hpt j]
    rcases hf_valid with hfv | ⟨hfv, hidx⟩
    · rw [hfv] at hj'
      rw [hInv.hint_valid j hj']
      exact Bool.true_or _
    · rw [hfv] at hj'
      by_cases hji : j < idx
      · rw [hInv.hint_valid j (by omega)]
        exact Bool.true_or _
      · have hin2 : idx ≤ j ∧ j < idx + n := by omega
        simp [hin2]

/-- Clearing a fully occupied in-bounds run (a valid release) preserves
the invariant and raises the free counter by exactly the run length. -/
theorem Inv_clear {p : Pool} (hInv : Inv p) {idx n : Nat}
    (hrange : idx + n ≤ p.block_counter)
    (hset : ∀ k, k < n → testBlockBit p.used_blocks (idx + k) = true) :
    Inv (p.free_blocks idx n)
      ∧ (p.free_blocks idx n).blocks_free_num = p.blocks_free_num + n := by
  have hpt := free_blocks_testBit hInv hrange
  have hclear := freeCount_clear hpt hrange hset
  have hcnt : (p.free_blocks idx n).blocks_free_num
      = p.blocks_free_num + n := by
    show (p.blocks_free_num + n) % SIZE = p.blocks_free_num + n
    have h1 := hInv.cnt_le
    have h2 := hInv.bc_lt
    rw [PTRMAX_eq] at h2
    rw [SIZE_eq]
    omega
  refine ⟨⟨hInv.size_pos, hInv.count_pos, hInv.arena_fits, ?_, ?_, ?_, ?_, ?_,
    hInv.mem_pos, hInv.mem_fits⟩, hcnt⟩
  · exact (clearLoop_length p.used_blocks idx n).trans hInv.len_eq
  · exact clearLoop_bytes_lt hInv.bytes_lt _ _
  · show (p.free_blocks idx n).blocks_free_num
      = freeCount (p.free_blocks idx n).used_blocks p.block_counter
    rw [hcnt, hclear, hInv.count_eq]
  · show (if idx < p.free_block then idx else p.free_block) ≤ p.block_counter
    have := hInv.hint_le
    split <;> omega
  · intro j hj
    rw [hpt j]
    have hjlt : j < p.free_block ∧ j < idx := by
      revert hj
      show j < (if idx < p.free_block then idx else p.free_block) → _
      have := hInv.hint_le
      split <;> (intro hj; omega)
    have hni : ¬(idx ≤ j ∧ j < idx + n) := by omega
    rw [hInv.hint_valid j hjlt.1]
    simp [hni]

theorem Inv_init {base bs bc : Nat} (hbs : 0 < bs) (hbc : 0 < bc)
    (hfit : bs * bc < PTRMAX) (hbase : 0 < base) (hspace : base + bs * bc < SIZE) :
    Inv (Pool.init base bs bc) := by
  refine ⟨hbs, hbc, hfit, ?_, ?_, ?_, Nat.zero_le _, ?_, hbase, hspace⟩
  · exact List.length_replicate _ _
  · intro b hb
    rw [List.eq_of_mem_replicate hb]
    omega
  · show bc = freeCount (List.replicate (1 + (bc - 1) / kByte) 0) bc
    unfold freeCount
    rw [Finset.filter_true_of_mem (fun j _ => testBlockBit_replicate _ j)]
    exact (Finset.card_range bc).symm
  · intro j hj
    exact absurd hj (Nat.not_lt_zero j)

theorem Inv_allocate {p : Pool} (hInv : Inv p) {bytes ptr : Nat} {q : Pool}
    (hbytes : bytes ≤ p.block_size * p.block_counter)
    (h : p.allocate bytes = some (ptr, q)) : Inv q := by
  obtain ⟨idx, hidx, hrange, hrun, hfb, _, _, hqeq⟩ := allocate_some_core hInv hbytes h
  subst hqeq
  refine (Inv_mark hInv hrange hrun.2 ?_ ?_).1
  · split <;> omega
  · by_cases hc : idx = p.free_block
    · rw [if_pos hc]
      exact Or.inr ⟨rfl, hc⟩
    · rw [if_neg hc]
      exact Or.inl rfl

theorem Inv_deallocate {p : Pool} (hInv : Inv p) {ptr bytes : Nat} {q : Pool}
    (hv : ValidRelease p ptr bytes) (h : p.deallocate ptr bytes = Except.ok q) :
    Inv q := by
  by_cases hptr : ptr = 0
  · unfold Pool.deallocate at h
    rw [if_pos hptr] at h
    cases h
  · rw [deallocate_eq hptr] at h
    injection h with h
    subst h
    exact (Inv_clear hInv hv.1 hv.2).1

/-- Every pool state reachable by valid use satisfies the structural
invariant. -/
theorem reachable_inv {p : Pool} (h : Reachable p) : Inv p := by
  induction h with
  | init base bs bc hbs hbc hfit hbase hspace =>
    exact Inv_init hbs hbc hfit hbase hspace
  | alloc bytes ptr hp hbytes h ih => exact Inv_allocate ih hbytes h
  | dealloc ptr bytes hp hv h ih => exact Inv_deallocate ih hv h

/-! ### Chain-level helpers -/

/-- A successful `Pool::allocate` returns a pointer of the form
`mem_pointer + idx * block_size` with an in-range start index (no
invariant needed: this is forced by the `idx_ >= block_counter` check). -/
theorem allocate_some_shape {p : Pool} {bytes ptr : Nat} {q : Pool}
    (h : p.allocate bytes = some (ptr, q)) :
    ∃ idx, idx < p.block_counter ∧ ptr = p.mem_pointer + idx * p.block_size := by
  simp only [Pool.allocate] at h
  by_cases hc : p.block_counter
      ≤ (p.get_blocks (numberOfBlocks bytes p.block_size)).1
  · rw [if_pos hc] at h
    cases h
  · rw [if_neg hc] at h
    rw [Option.some_inj, Prod.mk.injEq] at h
    exact ⟨_, Nat.lt_of_not_le hc, h.1.symm⟩

/-- A pool whose probe produces no pointer (pre-filter failure or a
failed search) is skipped and the walk continues with the rest of the
chain. -/
theorem memListAllocate_cons_none {p : Pool} {rest : List Pool} {bytes : Nat}
    (h : (if bytes ≤ (p.blocks_free_num * p.block_size) % SIZE
            ∧ p.blocks_free_num ≠ 0
          then p.allocate bytes else none) = none) :
    memListAllocate (p :: rest) bytes
      = match memListAllocate rest bytes with
        | Except.ok (ptr, rest') => Except.ok (ptr, p :: rest')
        | Except.error e => Except.error e := by
  simp only [memListAllocate, h]

/-- A chain in which every pool is exhausted throws `std::bad_alloc`
for every byte count: the `blocks_free_num` pre-filter skips each pool
and the walk falls off the end. -/
theorem memListAllocate_exhausted (ps : List Pool) (bytes : Nat)
    (h : ∀ p ∈ ps, p.blocks_free_num = 0) :
    memListAllocate ps bytes = Except.error CppError.badAlloc := by
  induction ps with
  | nil => rfl
  | cons p rest ih =>
    have hp := h p (List.mem_cons_self p rest)
    have hcond : ¬(bytes ≤ (p.blocks_free_num * p.block_size) % SIZE
        ∧ p.blocks_free_num ≠ 0) := fun hc => hc.2 hp
    rw [memListAllocate_cons_none (by rw [if_neg hcond]),
      ih (fun q hq => h q (List.mem_cons_of_mem p hq))]

/-- A chain of pools with `block_size ≥ 2` throws `std::bad_alloc` on a
zero-byte request even when pools have free blocks: the pre-filter
passes (`free * size >= 0` always holds) but each pool search fails on
the wrapped block count. -/
theorem memListAllocate_zero (ps : List Pool)
    (h : ∀ p ∈ ps, 2 ≤ p.block_size ∧ p.block_size * p.block_counter < SIZE
        ∧ p.free_block ≤ p.block_counter) :
    memListAllocate ps 0 = Except.error CppError.badAlloc := by
  induction ps with
  | nil => rfl
  | cons p rest ih =>
    obtain ⟨h1, h2, h3⟩ := h p (List.mem_cons_self p rest)
    have hnone : (if (0 : Nat) ≤ (p.blocks_free_num * p.block_size) % SIZE
        ∧ p.blocks_free_num ≠ 0 then p.allocate 0 else none) = none := by
      by_cases hc : (0 : Nat) ≤ (p.blocks_free_num * p.block_size) % SIZE
          ∧ p.blocks_free_num ≠ 0
      · rw [if_pos hc]
        exact allocate_zero_bs2 h1 h2 h3
      · rw [if_neg hc]
    rw [memListAllocate_cons_none hnone,
      ih (fun q hq => h q (List.mem_cons_of_mem p hq))]

/-! ### Concrete reachable states used as test vectors -/

/-- A fully occupied 3-block pool of 1-byte blocks whose resume hint is
strictly below `block_counter` (the hint was not advanced by the last
allocation, whose run did not start at the hint), reached by a genuine
allocate/deallocate history from a fresh pool. -/
theorem reachable_example_full : Reachable (⟨1, 3, 0, 1, 100, [224]⟩ : Pool) := by
  have r0 : Reachable (Pool.init 100 1 3) :=
    Reachable.init 100 1 3 (by decide) (by decide) (by decide) (by decide)
      (by decide)
  have r1 : Reachable (⟨1, 3, 2, 1, 100, [128]⟩ : Pool) :=
    Reachable.alloc 1 100 r0 (by decide) (by rfl)
  have r2 : Reachable (⟨1, 3, 1, 2, 100, [192]⟩ : Pool) :=
    Reachable.alloc 1 101 r1 (by decide) (by rfl)
  have r3 : Reachable (⟨1, 3, 0, 3, 100, [224]⟩ : Pool) :=
    Reachable.alloc 1 102 r2 (by decide) (by rfl)
  have r4 : Reachable (⟨1, 3, 1, 2, 100, [192]⟩ : Pool) :=
    Reachable.dealloc 102 1 r3 (by decide) (by rfl)
  have r5 : Reachable (⟨1, 3, 2, 0, 100, [64]⟩ : Pool) :=
    Reachable.dealloc 100 1 r4 (by decide) (by rfl)
  have r6 : Reachable (⟨1, 3, 1, 1, 100, [192]⟩ : Pool) :=
    Reachable.alloc 1 100 r5 (by decide) (by rfl)
  exact Reachable.alloc 1 102 r6 (by decide) (by rfl)

/-- The spec's §4.1 example layout: 6 blocks, only block 2 occupied,
hint 0, reached by a genuine history. -/
theorem reachable_example_frag : Reachable (⟨1, 6, 5, 0, 200, [32]⟩ : Pool) := by
  have r0 : Reachable (Pool.init 200 1 6) :=
    Reachable.init 200 1 6 (by decide) (by decide) (by decide) (by decide)
      (by decide)
  have r1 : Reachable (⟨1, 6, 5, 1, 200, [128]⟩ : Pool) :=
    Reachable.alloc 1 200 r0 (by decide) (by rfl)
  have r2 : Reachable (⟨1, 6, 4, 2, 200, [192]⟩ : Pool) :=
    Reachable.alloc 1 201 r1 (by decide) (by rfl)
  have r3 : Reachable (⟨1, 6, 3, 3, 200, [224]⟩ : Pool) :=
    Reachable.alloc 1 202 r2 (by decide) (by rfl)
  have r4 : Reachable (⟨1, 6, 4, 0, 200, [96]⟩ : Pool) :=
    Reachable.dealloc 200 1 r3 (by decide) (by rfl)
  exact Reachable.dealloc 201 1 r4 (by decide) (by rfl)

/-- The spec's §8 concrete scenario state: `block_size = 16`,
`block_count = 8`, after `allocate(33)` consumed blocks 0–2. -/
theorem reachable_example_spec : Reachable (⟨16, 8, 5, 3, 1000, [224]⟩ : Pool) :=
  Reachable.alloc 33 1000
    (Reachable.init 1000 16 8 (by decide) (by decide) (by decide) (by decide)
      (by decide))
    (by decide) (by rfl)

/-- The §8 state after the matching `deallocate(…, 33)`: all free
again. -/
theorem reachable_example_freed : Reachable (⟨16, 8, 8, 0, 1000, [0]⟩ : Pool) :=
  Reachable.dealloc 1000 33 reachable_example_spec (by decide) (by rfl)

/-- The state fields `use_blocks` leaves untouched. -/
theorem use_blocks_block_size (p : Pool) (idx n : Nat) :
    (p.use_blocks idx n).block_size = p.block_size := rfl

theorem use_blocks_block_counter (p : Pool) (idx n : Nat) :
    (p.use_blocks idx n).block_counter = p.block_counter := rfl

theorem use_blocks_mem_pointer (p : Pool) (idx n : Nat) :
    (p.use_blocks idx n).mem_pointer = p.mem_pointer := rfl

theorem upd_block_size (p : Pool) (f : Nat) :
    ({ p with free_block := f } : Pool).block_size = p.block_size := rfl

theorem upd_block_counter (p : Pool) (f : Nat) :
    ({ p with free_block := f } : Pool).block_counter = p.block_counter := rfl

theorem upd_mem_pointer (p : Pool) (f : Nat) :
    ({ p with free_block := f } : Pool).mem_pointer = p.mem_pointer := rfl

/-! ### The claims -/

/-- C1: in every pool state reachable by valid use of the public
operations, the free-block counter `blocks_free_num` equals the number
of zero bits among the first `block_counter` bits of the occupancy
bitmap `used_blocks`. -/
theorem c1_free_count_invariant (p : Pool) (h : Reachable p) :
    p.blocks_free_num = freeCount p.used_blocks p.block_counter :=
  (reachable_inv h).count_eq

theorem c1_free_count_invariant_witness :
    (⟨16, 8, 5, 3, 1000, [224]⟩ : Pool).blocks_free_num
      = freeCount (⟨16, 8, 5, 3, 1000, [224]⟩ : Pool).used_blocks
        (⟨16, 8, 5, 3, 1000, [224]⟩ : Pool).block_counter :=
  c1_free_count_invariant _
    (Reachable.alloc 33 1000
      (Reachable.init 1000 16 8 (by decide) (by decide) (by decide) (by decide)
        (by decide))
      (by decide) (by rfl))

/-- C2 counterexample: the claim fails at `byte_count = 0` on a pool
with `block_size = 1`.  On the reachable, fully occupied pool
`⟨1, 3, 0, 1, 100, [224]⟩` (hint 1), `allocate(0)` succeeds — the
computed block count `1 + ((0 - 1) / 1)` wraps to 0 — and returns the
pointer of block 1, although `blocks_needed = ceil(0/1) = 0` and the
lowest-indexed (degenerate) run of 0 consecutive free blocks starts at
index 0, so the returned pointer is not the lowest-indexed one. -/
theorem c2_counterexample :
    Reachable (⟨1, 3, 0, 1, 100, [224]⟩ : Pool)
    ∧ (⟨1, 3, 0, 1, 100, [224]⟩ : Pool).allocate 0
        = some (101, (⟨1, 3, 0, 1, 100, [224]⟩ : Pool))
    ∧ specCeil 0 1 = 0
    ∧ isFreeRun [224] 3 0 (specCeil 0 1)
    ∧ 101 ≠ 100 + 0 * 1 :=
  ⟨reachable_example_full, by rfl, by rfl, by decide, by decide⟩

/-- C2 (amended to genuine requests, `1 ≤ byte_count`, within the
arena size as the chain pre-filter guarantees): whenever
`Pool::allocate(byte_count)` succeeds on a pool reachable by valid
use, it returns the pointer to the lowest-indexed run of
`ceil(byte_count / block_size)` consecutive free blocks — first-fit,
lowest starting index wins. -/
theorem c2_first_fit {p : Pool} (hr : Reachable p) {bytes ptr : Nat} {q : Pool}
    (hb1 : 1 ≤ bytes) (hbytes : bytes ≤ p.block_size * p.block_counter)
    (h : p.allocate bytes = some (ptr, q)) :
    ∃ idx, ptr = p.mem_pointer + idx * p.block_size
      ∧ isFreeRun p.used_blocks p.block_counter idx (specCeil bytes p.block_size)
      ∧ ∀ s, s < idx → ¬ isFreeRun p.used_blocks p.block_counter s
          (specCeil bytes p.block_size) := by
  have hInv := reachable_inv hr
  have hPS : PTRMAX < SIZE := by rw [PTRMAX_eq, SIZE_eq]; omega
  have hblt : bytes < SIZE := lt_of_le_of_lt hbytes (lt_trans hInv.arena_fits hPS)
  have hceil : numberOfBlocks bytes p.block_size = specCeil bytes p.block_size :=
    numberOfBlocks_eq_specCeil hb1 hblt hInv.size_pos
  obtain ⟨idx, _, _, hrun, _, hmin, hp, _⟩ := allocate_some_core hInv hbytes h
  rw [hceil] at hrun hmin
  exact ⟨idx, hp, hrun, hmin hb1⟩

theorem c2_first_fit_witness :
    ((1 : Nat) ≤ 2 ∧ (2 : Nat) ≤ 1 * 6)
    ∧ ∃ idx, (200 : Nat) = 200 + idx * 1
      ∧ isFreeRun [32] 6 idx (specCeil 2 1)
      ∧ ∀ s, s < idx → ¬ isFreeRun [32] 6 s (specCeil 2 1) :=
  ⟨by decide,
   c2_first_fit reachable_example_frag (by decide) (by decide) (by rfl)⟩

/-- C3: (i) in every pool state reachable by valid use, every block
with index below the resume hint `free_block` is occupied (the hint
never exceeds the index of the lowest free block); (ii) a successful
allocation advances the hint to just past the consumed run exactly
when the run began at the hint and otherwise leaves it unchanged;
(iii) a release lowers the hint to the released block index exactly
when that index is smaller than the hint. -/
theorem c3_resume_hint :
    (∀ p : Pool, Reachable p → ∀ j, j < p.free_block
        → testBlockBit p.used_blocks j = true)
    ∧ (∀ p : Pool, Reachable p → ∀ bytes ptr q,
        bytes ≤ p.block_size * p.block_counter
        → p.allocate bytes = some (ptr, q)
        → ∃ idx, ptr = p.mem_pointer + idx * p.block_size
          ∧ q.free_block = (if idx = p.free_block
              then idx + numberOfBlocks bytes p.block_size else p.free_block))
    ∧ (∀ (p : Pool) (ptr bytes : Nat) (q : Pool),
        p.deallocate ptr bytes = Except.ok q
        → q.free_block
          = (if sub64 ptr p.mem_pointer / p.block_size < p.free_block
             then sub64 ptr p.mem_pointer / p.block_size else p.free_block)) := by
  refine ⟨?_, ?_, ?_⟩
  · intro p hr j hj
    exact (reachable_inv hr).hint_valid j hj
  · intro p hr bytes ptr q hbytes h
    obtain ⟨idx, _, _, _, _, _, hp, hqeq⟩ :=
      allocate_some_core (reachable_inv hr) hbytes h
    refine ⟨idx, hp, ?_⟩
    rw [hqeq]
    rfl
  · intro p ptr bytes q h
    by_cases hptr : ptr = 0
    · unfold Pool.deallocate at h
      rw [if_pos hptr] at h
      cases h
    · rw [deallocate_eq hptr] at h
      injection h with h
      subst h
      rfl

theorem c3_resume_hint_witness :
    testBlockBit [224] 2 = true
    ∧ ((33 : Nat) ≤ 16 * 8
      ∧ ∃ idx, (1000 : Nat) = 1000 + idx * 16
        ∧ (3 : Nat) = (if idx = 0 then idx + numberOfBlocks 33 16 else 0))
    ∧ (0 : Nat) = (if sub64 1000 1000 / 16 < 3 then sub64 1000 1000 / 16 else 3) := by
  refine ⟨?_, ⟨by decide, ?_⟩, ?_⟩
  · exact c3_resume_hint.1 (⟨16, 8, 5, 3, 1000, [224]⟩ : Pool)
      reachable_example_spec 2 (by decide)
  · exact c3_resume_hint.2.1 (Pool.init 1000 16 8)
      (Reachable.init 1000 16 8 (by decide) (by decide) (by decide) (by decide)
        (by decide))
      33 1000 (⟨16, 8, 5, 3, 1000, [224]⟩ : Pool) (by decide) (by rfl)
  · exact c3_resume_hint.2.2 (⟨16, 8, 5, 3, 1000, [224]⟩ : Pool) 1000 33
      (⟨16, 8, 8, 0, 1000, [0]⟩ : Pool) (by rfl)

/-- C4: for every reachable pool state and every request the chain can
route to it, a successful `allocate` followed by `deallocate` of the
same pointer with the same byte count restores `blocks_free_num` to
its pre-allocation value, clears exactly the `N` consumed bitmap bits
and leaves every occupancy bit as before the allocation. -/
theorem c4_roundtrip {p : Pool} (hr : Reachable p) {bytes ptr : Nat} {q : Pool}
    (hbytes : bytes ≤ p.block_size * p.block_counter)
    (h : p.allocate bytes = some (ptr, q)) :
    ∃ idx q', ptr = p.mem_pointer + idx * p.block_size
      ∧ q.deallocate ptr bytes = Except.ok q'
      ∧ q'.blocks_free_num = p.blocks_free_num
      ∧ (∀ j, testBlockBit q'.used_blocks j = testBlockBit p.used_blocks j)
      ∧ (∀ k, k < numberOfBlocks bytes p.block_size
          → testBlockBit q'.used_blocks (idx + k) = false) := by
  have hInv := reachable_inv hr
  have hInvq : Inv q := Inv_allocate hInv hbytes h
  obtain ⟨idx, hidx, hrange, hrun, hfb, hmin, hp, hqeq⟩ :=
    allocate_some_core hInv hbytes h
  have hqbs : q.block_size = p.block_size :=
    (congrArg Pool.block_size hqeq).trans
      ((use_blocks_block_size _ _ _).trans (upd_block_size _ _))
  have hqbc : q.block_counter = p.block_counter :=
    (congrArg Pool.block_counter hqeq).trans
      ((use_blocks_block_counter _ _ _).trans (upd_block_counter _ _))
  have hqmem : q.mem_pointer = p.mem_pointer :=
    (congrArg Pool.mem_pointer hqeq).trans
      ((use_blocks_mem_pointer _ _ _).trans (upd_mem_pointer _ _))
  have hhl := hInv.hint_le
  have hflE : (if idx = p.free_block
      then idx + numberOfBlocks bytes p.block_size else p.free_block)
      ≤ p.block_counter := by
    split <;> omega
  have hfV : (if idx = p.free_block
        then idx + numberOfBlocks bytes p.block_size else p.free_block)
        = p.free_block
      ∨ ((if idx = p.free_block
          then idx + numberOfBlocks bytes p.block_size else p.free_block)
          = idx + numberOfBlocks bytes p.block_size ∧ idx = p.free_block) := by
    by_cases hc : idx = p.free_block
    · rw [if_pos hc]
      exact Or.inr ⟨rfl, hc⟩
    · rw [if_neg hc]
      exact Or.inl rfl
  have hM := Inv_mark hInv hrange hrun.2 hflE hfV
  have hqcnt : q.blocks_free_num
      = p.blocks_free_num - numberOfBlocks bytes p.block_size := by
    rw [hqeq]
    exact hM.2.1
  have hqle := hM.2.2
  have hub_bits : ∀ j, testBlockBit q.used_blocks j
      = (testBlockBit p.used_blocks j
        || decide (idx ≤ j ∧ j < idx + numberOfBlocks bytes p.block_size)) := by
    rw [hqeq]
    exact use_blocks_testBit hInv hrange _
  have hcm : p.block_counter * p.block_size = p.block_size * p.block_counter :=
    Nat.mul_comm _ _
  have hmul : idx * p.block_size < p.block_size * p.block_counter := by
    have h2 := Nat.mul_lt_mul_of_pos_right hidx hInv.size_pos
    omega
  have hptr0 : ptr ≠ 0 := by
    have h3 := hInv.mem_pos
    omega
  have hptrS : ptr < SIZE := by
    have h4 := hInv.mem_fits
    omega
  have hsub : sub64 ptr q.mem_pointer / q.block_size = idx := by
    rw [hqmem, hqbs, hp, sub64_eq_sub (Nat.le_add_right _ _) (by omega)]
    rw [Nat.add_sub_cancel_left]
    exact Nat.mul_div_cancel _ hInv.size_pos
  have hnq : numberOfBlocks bytes q.block_size
      = numberOfBlocks bytes p.block_size := by rw [hqbs]
  have hqset : ∀ k, k < numberOfBlocks bytes p.block_size
      → testBlockBit q.used_blocks (idx + k) = true := by
    intro k hk
    rw [hub_bits]
    have hin : idx ≤ idx + k
        ∧ idx + k < idx + numberOfBlocks bytes p.block_size := by omega
    simp [hin]
  have hrangeq : idx + numberOfBlocks bytes p.block_size ≤ q.block_counter := by
    rw [hqbc]
    exact hrange
  have hC := Inv_clear hInvq hrangeq hqset
  have hCbits := free_blocks_testBit hInvq hrangeq
  have hrestore : ∀ j,
      testBlockBit ((q.free_blocks idx
        (numberOfBlocks bytes p.block_size)).used_blocks) j
      = testBlockBit p.used_blocks j := by
    intro j
    rw [hCbits j, hub_bits j]
    by_cases hin : idx ≤ j ∧ j < idx + numberOfBlocks bytes p.block_size
    · have hfree := hrun.2 (j - idx) (by omega)
      rw [show idx + (j - idx) = j by omega] at hfree
      simp [hin, hfree]
    · simp [hin]
  refine ⟨idx, q.free_blocks idx (numberOfBlocks bytes p.block_size), hp,
    ?_, ?_, hrestore, ?_⟩
  · rw [deallocate_eq hptr0, hsub, hnq]
  · rw [hC.2, hqcnt]
    omega
  · intro k hk
    rw [hrestore]
    exact hrun.2 k hk

theorem c4_roundtrip_witness :
    ((33 : Nat) ≤ 16 * 8)
    ∧ ∃ idx q', (1000 : Nat) = 1000 + idx * 16
      ∧ (⟨16, 8, 5, 3, 1000, [224]⟩ : Pool).deallocate 1000 33 = Except.ok q'
      ∧ q'.blocks_free_num = 8
      ∧ (∀ j, testBlockBit q'.used_blocks j
          = testBlockBit (Pool.init 1000 16 8).used_blocks j)
      ∧ (∀ k, k < numberOfBlocks 33 16
          → testBlockBit q'.used_blocks (idx + k) = false) :=
  ⟨by decide,
   c4_roundtrip
     (Reachable.init 1000 16 8 (by decide) (by decide) (by decide) (by decide)
       (by decide))
     (by decide) (by rfl)⟩

/-- C5: the claim demands that releasing an already-free block fail
loudly, but the source's `free_blocks` performs no occupancy check at
all: a double free from a genuinely reachable all-free state is
silently accepted and drives `blocks_free_num` to 9 on an 8-block pool
(corrupting the C1 invariant).  The sibling `assert` in `use_blocks`
also fails to fire when the byte holding the re-marked block has its
top bit set, because the signed-`char` arithmetic shift makes
`(byte >> order) % 2` evaluate to `-1` rather than `1`. -/
theorem c5_double_free_unchecked :
    Reachable (⟨16, 8, 8, 0, 1000, [0]⟩ : Pool)
    ∧ (⟨16, 8, 8, 0, 1000, [0]⟩ : Pool).deallocate 1000 16
        = Except.ok (⟨16, 8, 9, 0, 1000, [0]⟩ : Pool)
    ∧ (⟨16, 8, 9, 0, 1000, [0]⟩ : Pool).block_counter
        < (⟨16, 8, 9, 0, 1000, [0]⟩ : Pool).blocks_free_num
    ∧ useBlocksAssertFires [128] 0 = false :=
  ⟨reachable_example_freed, by rfl, by decide, by rfl⟩

/-- C6 counterexample: the pool half of the claim fails at
`byte_count = 0` with `block_size = 1`.  The pool
`⟨1, 3, 0, 1, 100, [224]⟩` is reachable by valid use, has
`blocks_free_num = 0` and every block occupied, yet `allocate(0)`
returns a pointer rather than the empty result: the computed block
count wraps to 0 and the degenerate scan succeeds at the hint. -/
theorem c6_counterexample :
    Reachable (⟨1, 3, 0, 1, 100, [224]⟩ : Pool)
    ∧ (⟨1, 3, 0, 1, 100, [224]⟩ : Pool).blocks_free_num = 0
    ∧ (∀ j, j < 3 → testBlockBit [224] j = true)
    ∧ (⟨1, 3, 0, 1, 100, [224]⟩ : Pool).allocate 0
        = some (101, (⟨1, 3, 0, 1, 100, [224]⟩ : Pool)) :=
  ⟨reachable_example_full, rfl, by decide, by rfl⟩

/-- C6 (amended: the pool half restricted to genuine requests,
`1 ≤ byte_count < 2^64`): a reachable pool with `blocks_free_num = 0`
returns the empty result from `allocate` — its search returns the
sentinel `block_counter`, translated to the null pointer — and a chain
in which every pool is exhausted throws `std::bad_alloc` for every
byte count, never returning a null success. -/
theorem c6_exhaustion :
    (∀ p : Pool, Reachable p → p.blocks_free_num = 0
      → ∀ bytes, 1 ≤ bytes → bytes < SIZE → p.allocate bytes = none)
    ∧ (∀ (ps : List Pool) (bytes : Nat), (∀ p ∈ ps, p.blocks_free_num = 0)
      → memListAllocate ps bytes = Except.error CppError.badAlloc) := by
  refine ⟨?_, memListAllocate_exhausted⟩
  intro p hr hcnt bytes hb1 hb2
  exact allocate_of_full (reachable_inv hr) hb1 hb2
    (full_of_count_zero (reachable_inv hr) hcnt)

theorem c6_exhaustion_witness :
    ((⟨1, 3, 0, 1, 100, [224]⟩ : Pool).blocks_free_num = 0
      ∧ (1 : Nat) ≤ 1 ∧ (1 : Nat) < SIZE)
    ∧ (⟨1, 3, 0, 1, 100, [224]⟩ : Pool).allocate 1 = none
    ∧ memListAllocate [(⟨1, 3, 0, 1, 100, [224]⟩ : Pool)] 5
        = Except.error CppError.badAlloc :=
  ⟨⟨rfl, by decide, by decide⟩,
   c6_exhaustion.1 _ reachable_example_full rfl 1 (by decide) (by decide),
   c6_exhaustion.2 [(⟨1, 3, 0, 1, 100, [224]⟩ : Pool)] 5 (by decide)⟩

/-- C7: `MemPoolList::allocate` probes pools in chain order; every pool
before the one that served the request either failed the cheap
pre-filter `blocks_free_num * block_size >= bytes && blocks_free_num`
or passed it yet had its bitmap search fail (free space fragmented
into runs shorter than the request), and the returned pointer lies in
the serving pool's arena range (its `find` claims it). -/
theorem c7_chain_fallback {ps : List Pool} {bytes ptr : Nat} {ps' : List Pool}
    (hpools : ∀ p ∈ ps, 0 < p.block_size
      ∧ p.block_size * p.block_counter < SIZE)
    (h : memListAllocate ps bytes = Except.ok (ptr, ps')) :
    ∃ pre po po' post,
      ps = pre ++ po :: post
      ∧ ps' = pre ++ po' :: post
      ∧ po.allocate bytes = some (ptr, po')
      ∧ po.find ptr = true
      ∧ ∀ q ∈ pre,
          ¬(bytes ≤ (q.blocks_free_num * q.block_size) % SIZE
            ∧ q.blocks_free_num ≠ 0)
          ∨ q.allocate bytes = none := by
  induction ps generalizing ps' with
  | nil => cases h
  | cons p rest ih =>
    rcases hpa : (if bytes ≤ (p.blocks_free_num * p.block_size) % SIZE
        ∧ p.blocks_free_num ≠ 0 then p.allocate bytes else none) with _ | pr
    · rw [memListAllocate_cons_none hpa] at h
      rcases hrec : memListAllocate rest bytes with e | pr2
      · rw [hrec] at h
        cases h
      · obtain ⟨ptr2, rest'⟩ := pr2
        rw [hrec] at h
        have h2 : Except.ok (ptr2, p :: rest')
            = Except.ok (ptr, ps') := h
        rw [Except.ok.injEq, Prod.mk.injEq] at h2
        obtain ⟨hptr2, hps'⟩ := h2
        subst hptr2
        obtain ⟨pre, po, po', post, hps, hps2, hpo, hfind, hpre⟩ :=
          ih (fun q hq => hpools q (List.mem_cons_of_mem p hq)) hrec
        refine ⟨p :: pre, po, po', post, ?_, ?_, hpo, hfind, ?_⟩
        · rw [hps]
          rfl
        · rw [← hps', hps2]
          rfl
        · intro u hu
          rcases List.mem_cons.mp hu with hu | hu
          · subst hu
            by_cases hc : bytes ≤ (u.blocks_free_num * u.block_size) % SIZE
                ∧ u.blocks_free_num ≠ 0
            · rw [if_pos hc] at hpa
              exact Or.inr hpa
            · exact Or.inl hc
          · exact hpre u hu
    · obtain ⟨ptr0, p0'⟩ := pr
      have hred : memListAllocate (p :: rest) bytes
          = Except.ok (ptr0, p0' :: rest) := by
        simp only [memListAllocate, hpa]
      rw [hred] at h
      rw [Except.ok.injEq, Prod.mk.injEq] at h
      obtain ⟨hptr0, hps'⟩ := h
      subst hptr0
      by_cases hc : bytes ≤ (p.blocks_free_num * p.block_size) % SIZE
          ∧ p.blocks_free_num ≠ 0
      · rw [if_pos hc] at hpa
        obtain ⟨hbs, hfit⟩ := hpools p (List.mem_cons_self p rest)
        obtain ⟨idx, hidx, hptr⟩ := allocate_some_shape hpa
        have hfind : p.find ptr0 = true := by
          simp only [Pool.find, decide_eq_true_eq]
          constructor
          · rw [hptr]
            exact Nat.le_add_right _ _
          · rw [hptr, Nat.mod_eq_of_lt hfit]
            have h5 := Nat.mul_lt_mul_of_pos_right hidx hbs
            have h6 : p.block_counter * p.block_size
                = p.block_size * p.block_counter := Nat.mul_comm _ _
            omega
        exact ⟨[], p, p0', rest, rfl, by rw [← hps']; rfl, hpa, hfind,
          fun u hu => absurd hu (List.not_mem_nil u)⟩
      · rw [if_neg hc] at hpa
        cases hpa

theorem c7_chain_fallback_witness :
    (∀ p ∈ ([⟨1, 4, 2, 0, 1000, [80]⟩, ⟨1, 4, 4, 0, 2000, [0]⟩] : List Pool),
      0 < p.block_size ∧ p.block_size * p.block_counter < SIZE)
    ∧ ∃ pre po po' post,
        ([⟨1, 4, 2, 0, 1000, [80]⟩, ⟨1, 4, 4, 0, 2000, [0]⟩] : List Pool)
          = pre ++ po :: post
        ∧ ([⟨1, 4, 2, 0, 1000, [80]⟩, ⟨1, 4, 2, 2, 2000, [192]⟩] : List Pool)
          = pre ++ po' :: post
        ∧ po.allocate 2 = some (2000, po')
        ∧ po.find 2000 = true
        ∧ ∀ q ∈ pre,
            ¬((2 : Nat) ≤ (q.blocks_free_num * q.block_size) % SIZE
              ∧ q.blocks_free_num ≠ 0)
            ∨ q.allocate 2 = none :=
  ⟨by decide, c7_chain_fallback (by decide) (by rfl)⟩

/-- C8: `Pool::deallocate` of a null pointer throws (`std::bad_alloc`)
for every byte count, before touching any state — it is never a silent
no-op. -/
theorem c8_null_deallocate (p : Pool) (bytes : Nat) :
    p.deallocate 0 bytes = Except.error CppError.badAlloc := by
  unfold Pool.deallocate
  rw [if_pos rfl]

theorem c8_null_deallocate_witness :
    (⟨16, 8, 8, 0, 1000, [0]⟩ : Pool).deallocate 0 16
      = Except.error CppError.badAlloc :=
  c8_null_deallocate (⟨16, 8, 8, 0, 1000, [0]⟩ : Pool) 16

/-- C9: a pointer claimed by no pool's `find` — the address-range test
`mem_pointer <= p < mem_pointer + block_size * block_counter`, which
never claims the null pointer for a pool whose arena has a nonzero
base — makes `MemPoolList::deallocate` a silent no-op: it returns
normally leaving every pool (bitmap, free count and resume hint)
unchanged. -/
theorem c9_unowned_noop :
    (∀ (ps : List Pool) (ptr bytes : Nat), (∀ p ∈ ps, p.find ptr = false)
      → memListDeallocate ps ptr bytes = Except.ok ps)
    ∧ (∀ p : Pool, 0 < p.mem_pointer → p.find 0 = false) := by
  constructor
  · intro ps ptr bytes hall
    induction ps with
    | nil => rfl
    | cons p rest ih =>
      have hp := hall p (List.mem_cons_self p rest)
      have hrest := ih (fun u hu => hall u (List.mem_cons_of_mem p hu))
      simp only [memListDeallocate]
      rw [if_neg (by simp [hp]), hrest]
  · intro p hmem
    simp only [Pool.find, decide_eq_false_iff_not]
    intro hc
    omega

theorem c9_unowned_noop_witness :
    (∀ p ∈ ([(⟨16, 8, 8, 0, 1000, [0]⟩ : Pool)] : List Pool), p.find 55 = false)
    ∧ memListDeallocate [(⟨16, 8, 8, 0, 1000, [0]⟩ : Pool)] 55 7
        = Except.ok [(⟨16, 8, 8, 0, 1000, [0]⟩ : Pool)]
    ∧ (0 : Nat) < 1000
    ∧ (⟨16, 8, 8, 0, 1000, [0]⟩ : Pool).find 0 = false :=
  ⟨by decide, c9_unowned_noop.1 _ 55 7 (by decide), by decide,
   c9_unowned_noop.2 (⟨16, 8, 8, 0, 1000, [0]⟩ : Pool) (by decide)⟩

/-- C10: with `block_size ≥ 2` (and an arena that fits in `size_t`),
`Pool::allocate(0)` returns the empty result even when every block is
free, and a chain of such pools throws the out-of-memory error on
`allocate(0)` even with free capacity: `1 + ((0 - 1) / block_size)` is
computed in unsigned 64-bit arithmetic, so the byte count 0 wraps to a
block count exceeding any such pool's `block_counter`. -/
theorem c10_zero_byte_wrap :
    (∀ p : Pool, 2 ≤ p.block_size → p.block_size * p.block_counter < SIZE
      → p.free_block ≤ p.block_counter → p.allocate 0 = none)
    ∧ (∀ ps : List Pool, (∀ p ∈ ps, 2 ≤ p.block_size
        ∧ p.block_size * p.block_counter < SIZE
        ∧ p.free_block ≤ p.block_counter)
      → memListAllocate ps 0 = Except.error CppError.badAlloc) :=
  ⟨fun _ h1 h2 h3 => allocate_zero_bs2 h1 h2 h3, memListAllocate_zero⟩

theorem c10_zero_byte_wrap_witness :
    ((2 : Nat) ≤ 2 ∧ 2 * 4 < SIZE ∧ (0 : Nat) ≤ 4)
    ∧ (Pool.init 500 2 4).allocate 0 = none
    ∧ memListAllocate [Pool.init 500 2 4] 0 = Except.error CppError.badAlloc :=
  ⟨⟨by decide, by decide, by decide⟩,
   c10_zero_byte_wrap.1 (Pool.init 500 2 4) (by decide) (by decide) (by decide),
   c10_zero_byte_wrap.2 [Pool.init 500 2 4] (by decide)⟩

end MemPools
